import Mathlib

/-!
Verification of the bhagavad-gita batch utilities.

The Python sources are embedded shallowly:
* `generate-html.py` : text normalization, the fuzzy equivalence predicate
  (including difflib's `SequenceMatcher` matching-block machinery) and the
  greedy verse-grouping loop;
* `add-speaker.py`   : speaker detection and insertion into an ordered record;
* `recompute_speakers.py` : the whole-corpus carry-forward normalizer.

Strings are handled as `List Char` (Python strings are sequences of code
points).  Ratios are exact rationals.  Records are ordered key/value lists,
mirroring `json.load(..., object_pairs_hook=OrderedDict)`.
-/

/-- Python `str.strip` / `\s` whitespace (ASCII subset used by the corpus). -/
def pySpace (c : Char) : Bool :=
  c == ' ' || c == '\t' || c == '\n' || c == '\r' || c == '\x0b' || c == '\x0c'

/-- Python `str.strip()`: drop whitespace from both ends. -/
def stripChars (l : List Char) : List Char :=
  ((l.dropWhile pySpace).reverse.dropWhile pySpace).reverse

/-- One pass of `re.sub(r'\s+', ' ', s)`: the flag records whether the
previous character was part of a whitespace run already emitted as `' '`. -/
def collapseAux : Bool → List Char → List Char
  | _, [] => []
  | prevSpace, c :: rest =>
    if pySpace c then
      if prevSpace then collapseAux true rest
      else ' ' :: collapseAux true rest
    else c :: collapseAux false rest

/-- `re.sub(r'\s+', ' ', s)`. -/
def collapseWS (l : List Char) : List Char := collapseAux false l

/-- The punctuation class of `re.sub(r'\s+([!?,।;:])', r'\1', s)`. -/
def punctAfterSpace (c : Char) : Bool :=
  c == '!' || c == '?' || c == ',' || c == '।' || c == ';' || c == ':'

/-- `re.sub(r'\s+([!?,।;:])', r'\1', s)`: every whitespace run directly
followed by one of the punctuation marks is deleted (the mark is kept).
Scanning from the right, a whitespace character is dropped exactly when the
already-processed suffix starts with such a mark. -/
def rmSpaceBeforePunct (l : List Char) : List Char :=
  l.foldr
    (fun c acc =>
      if pySpace c && (match acc with
        | d :: _ => punctAfterSpace d
        | [] => false) then acc
      else c :: acc) []

/-- Maximal run of ASCII digits (`\d+` is greedy and deterministic here
because the following literal characters are never digits). -/
def takeDigits (l : List Char) : List Char := l.takeWhile Char.isDigit

def dropDigits (l : List Char) : List Char := l.dropWhile Char.isDigit

/-- `\s*`. -/
def skipWS (l : List Char) : List Char := l.dropWhile pySpace

/-- `\d+\.\d+`: returns the rest of the input on success. -/
def parseVerseNum (l : List Char) : Option (List Char) :=
  let d1 := takeDigits l
  if d1.isEmpty then none
  else
    match dropDigits l with
    | '.' :: r2 =>
      let d2 := takeDigits r2
      if d2.isEmpty then none else some (dropDigits r2)
    | _ => none

/-- `(?:--|[-–—])`: the two-character alternative is tried first, exactly as
in the regex alternation (a failed single-dash continuation can never
succeed where the double-dash one failed, so no further backtracking is
needed). -/
def parseDash : List Char → Option (List Char)
  | '-' :: '-' :: rest => some rest
  | '-' :: rest => some rest
  | '–' :: rest => some rest
  | '—' :: rest => some rest
  | _ => none

/-- The literal `।।` (two danda characters). -/
def parseDanda2 : List Char → Option (List Char)
  | '।' :: '।' :: rest => some rest
  | _ => none

/-- The anchored pattern `^।।\s*\d+\.\d+(?:\s*(?:--|[-–—])\s*\d+\.\d+)?।।\s*`
of `strip_verse_prefix`.  Returns the remaining input when the pattern
matches at the start.  The optional ranged part is tried greedily; if the
closing `।।` then fails the regex backtracks to the unranged form. -/
def matchVersePre (l : List Char) : Option (List Char) :=
  match parseDanda2 l with
  | none => none
  | some r0 =>
    match parseVerseNum (skipWS r0) with
    | none => none
    | some r1 =>
      let ranged : Option (List Char) :=
        match parseDash (skipWS r1) with
        | none => none
        | some rd => parseVerseNum (skipWS rd)
      let closeAt : List Char → Option (List Char) := fun r =>
        match parseDanda2 r with
        | some r3 => some (skipWS r3)
        | none => none
      match ranged with
      | some r2 =>
        match closeAt r2 with
        | some res => some res
        | none => closeAt r1
      | none => closeAt r1

/-- `strip_verse_prefix` from generate-html.py: `if not text: return ''`,
then `re.sub(pattern, '', text.strip())` with the `^`-anchored pattern
above (so at most the leading occurrence is removed). -/
def stripVersePrefix (text : String) : String :=
  if text = "" then ""
  else
    let s := stripChars text.data
    match matchVersePre s with
    | some rest => String.mk rest
    | none => String.mk s

/-- `normalize_text` from generate-html.py: strip the verse prefix, trim,
collapse whitespace runs, remove whitespace before `! ? , । ; :`. -/
def normalize_text (text : String) : String :=
  let t := stripVersePrefix text
  String.mk (rmSpaceBeforePunct (collapseWS (stripChars t.data)))

/-- The punctuation class of `strip_for_tokens`:
`[!?,।;:\-–—]|\[|\]|"|\(|\)|\/`. -/
def tokenPunct (c : Char) : Bool :=
  c == '!' || c == '?' || c == ',' || c == '।' || c == ';' || c == ':' ||
  c == '-' || c == '–' || c == '—' || c == '[' || c == ']' || c == '"' ||
  c == '(' || c == ')' || c == '/'

/-- `strip_for_tokens` from generate-html.py: normalize, replace the
punctuation characters by spaces, collapse whitespace, lowercase. -/
def strip_for_tokens (text : String) : String :=
  let t := normalize_text text
  let s := t.data.map (fun c => if tokenPunct c then ' ' else c)
  String.mk ((collapseWS s).map Char.toLower)

/-- Python `str.split()` (split on whitespace runs, no empty tokens),
realised as a right fold accumulating the current word. -/
def splitWS (l : List Char) : List (List Char) :=
  let p := l.foldr
    (fun c (acc : List Char × List (List Char)) =>
      if pySpace c then
        (if acc.1.isEmpty then acc else ([], acc.1 :: acc.2))
      else (c :: acc.1, acc.2)) ([], [])
  if p.1.isEmpty then p.2 else p.1 :: p.2

def pySplit (s : String) : List String := (splitWS s.data).map String.mk

/-- The token sequence used by rule 3 of `are_texts_equivalent`:
`strip_for_tokens(x).split()`. -/
def tokensOf (text : String) : List String := pySplit (strip_for_tokens text)

/-! ### difflib.SequenceMatcher (isjunk = None)

`are_texts_equivalent` calls `SequenceMatcher(None, na, nb).ratio()`.
`ratio` is `2 * M / (len(a) + len(b))` (and `1.0` for two empty strings)
where `M` is the total size of the matching blocks found by the recursive
longest-matching-block decomposition.  With `isjunk=None` the junk set is
empty, so the two junk-extension loops of `find_longest_match` never run;
`autojunk` still excludes "popular" elements of `b` from anchoring matches
when `len(b) >= 200`. -/

/-- Ascending list of the positions of `c` in `b`. -/
def positions (c : Char) (b : List Char) : List Nat :=
  (b.enum.filter (fun p => p.2 == c)).map Prod.fst

/-- `self.b2j` after `__chain_b`: positions of `c` in `b`, with popular
elements removed when autojunk applies (`len(b) >= 200` and the element
occurs more than `len(b) // 100 + 1` times). -/
def b2j (b : List Char) (c : Char) : List Nat :=
  let ps := positions c b
  if 200 ≤ b.length ∧ b.length / 100 + 1 < ps.length then [] else ps

/-- `j2len.get(j, 0)` on the association-list representation of the dict. -/
def alookup (d : List (Nat × Nat)) (j : Nat) : Nat :=
  match d.find? (fun p => p.1 == j) with
  | some p => p.2
  | none => 0

/-- The dict-based core loop of `find_longest_match` (before the extension
loops): state is `(j2len, besti, bestj, bestsize)`. -/
def flmCore (a b : List Char) (alo ahi blo bhi : Nat) : Nat × Nat × Nat :=
  let step := fun (st : List (Nat × Nat) × Nat × Nat × Nat) (i : Nat) =>
    let js := (b2j b (a.getD i ' ')).filter (fun j => blo ≤ j && j < bhi)
    let inner := js.foldl
      (fun (st2 : List (Nat × Nat) × Nat × Nat × Nat) j =>
        let k := (if j = 0 then 0 else alookup st.1 (j - 1)) + 1
        let nj := (j, k) :: st2.1
        if st2.2.2.2 < k then (nj, i + 1 - k, j + 1 - k, k)
        else (nj, st2.2))
      ([], st.2)
    inner
  let fin := ((List.range (ahi - alo)).map (· + alo)).foldl step ([], alo, blo, 0)
  fin.2

/-- First extension loop: grow the best block to the left while the
adjacent characters are equal (the junk guard is vacuous). -/
def extBack (a b : List Char) (alo blo : Nat) :
    Nat → Nat × Nat × Nat → Nat × Nat × Nat
  | 0, st => st
  | fuel + 1, (besti, bestj, bestsize) =>
    if alo < besti ∧ blo < bestj ∧
        a.getD (besti - 1) '\x00' == b.getD (bestj - 1) '\x01' then
      extBack a b alo blo fuel (besti - 1, bestj - 1, bestsize + 1)
    else (besti, bestj, bestsize)

/-- Second extension loop: grow the best block to the right. -/
def extFwd (a b : List Char) (ahi bhi : Nat) :
    Nat → Nat × Nat × Nat → Nat × Nat × Nat
  | 0, st => st
  | fuel + 1, (besti, bestj, bestsize) =>
    if besti + bestsize < ahi ∧ bestj + bestsize < bhi ∧
        a.getD (besti + bestsize) '\x00' == b.getD (bestj + bestsize) '\x01' then
      extFwd a b ahi bhi fuel (besti, bestj, bestsize + 1)
    else (besti, bestj, bestsize)

/-- `find_longest_match(alo, ahi, blo, bhi)` with `isjunk = None`.
The backward loop runs at most `besti` times and the forward loop at most
`ahi` times, so those fuels are sufficient. -/
def findLongestMatch (a b : List Char) (alo ahi blo bhi : Nat) : Nat × Nat × Nat :=
  let core := flmCore a b alo ahi blo bhi
  let e1 := extBack a b alo blo core.1 core
  extFwd a b ahi bhi ahi e1

/-- Total size of the matching blocks: the LIFO queue recursion of
`get_matching_blocks`, keeping only the running sum of block sizes (the
final sort-and-merge step of difflib does not change the sum).  Each
iteration strictly decreases `Σ (ahi-alo) + (bhi-blo) + 1` over the queue,
so `len(a) + len(b) + 1` units of fuel always suffice for the initial
queue `[(0, la, 0, lb)]`. -/
def mbSum (a b : List Char) : Nat → List (Nat × Nat × Nat × Nat) → Nat
  | 0, _ => 0
  | _, [] => 0
  | fuel + 1, (alo, ahi, blo, bhi) :: queue =>
    let m := findLongestMatch a b alo ahi blo bhi
    let i := m.1
    let j := m.2.1
    let k := m.2.2
    if k = 0 then mbSum a b fuel queue
    else
      let q1 := if alo < i ∧ blo < j then (alo, i, blo, j) :: queue else queue
      let q2 := if i + k < ahi ∧ j + k < bhi then (i + k, ahi, j + k, bhi) :: q1 else q1
      k + mbSum a b fuel q2

/-- `M`: the sum of the sizes of all matching blocks. -/
def matchesTotal (a b : List Char) : Nat :=
  mbSum a b (a.length + b.length + 1) [(0, a.length, 0, b.length)]

/-- `SequenceMatcher(None, a, b).ratio()` as an exact rational:
`2M / (la + lb)`, and `1` when both strings are empty. -/
def seqRatio (a b : String) : ℚ :=
  if a.data.length + b.data.length = 0 then 1
  else (2 * matchesTotal a.data b.data : ℚ) / (a.data.length + b.data.length)

/-- Integer form of the strict comparison `ratio > 0.965` (used by the
executable predicate; proved equivalent to the rational comparison in
`ratioGt_iff_seqRatio`). -/
def ratioGt (a b : String) : Bool :=
  let t := a.data.length + b.data.length
  let m := matchesTotal a.data b.data
  if t = 0 then true else decide (965 * t < 1000 * (2 * m))

/-- `are_texts_equivalent` from generate-html.py.  Criteria, first hit
wins: exact normalized match; similarity ratio `> 0.965`; token symmetric
difference of size `<= 2` together with token-count difference `<= 3`. -/
def are_texts_equivalent (a b : String) : Bool :=
  let na := normalize_text a
  let nb := normalize_text b
  if na = nb then true
  else if ratioGt na nb then true
  else
    let ta := tokensOf a
    let tb := tokensOf b
    let symDiff := (ta.toFinset \ tb.toFinset) ∪ (tb.toFinset \ ta.toFinset)
    if symDiff.card ≤ 2 ∧ ((ta.length : ℤ) - tb.length).natAbs ≤ 3 then true
    else false

/-! ### The grouping engine (`group_sloks`) -/

/-- One input tuple `(chapter, verse, rams_ht_text, speaker)`. -/
structure Tup where
  chap : Nat
  verse : Nat
  text : String
  speaker : Option String
deriving DecidableEq

/-- One output tuple `(chapter, start_verse, end_verse, text, speaker)`. -/
structure GMsg where
  chap : Nat
  startv : Nat
  endv : Nat
  text : String
  speaker : Option String
deriving DecidableEq

/-- The inner `while` condition of `group_sloks`:
`chap_j == chap and verse_j == end_verse + 1 and speaker_j == speaker and
are_texts_equivalent(text, text_j)` where `text` is the text of the tuple
that opened the current group. -/
def extendOk (chap endv : Nat) (speaker : Option String) (text : String)
    (t : Tup) : Bool :=
  t.chap == chap && t.verse == endv + 1 && t.speaker == speaker &&
    are_texts_equivalent text t.text

/-- The two nested loops of `group_sloks`: the outer state is the group
opened by `slok_data[i]` (`chap`, `start_verse`, running `end_verse`, the
opener's `text` and `speaker`); the inner loop consumes tuples while the
condition holds. -/
def groupAux (chap startv endv : Nat) (text : String)
    (speaker : Option String) : List Tup → List GMsg
  | [] => [⟨chap, startv, endv, text, speaker⟩]
  | t :: rest =>
    if extendOk chap endv speaker text t then
      groupAux chap startv t.verse text speaker rest
    else
      ⟨chap, startv, endv, text, speaker⟩ ::
        groupAux t.chap t.verse t.verse t.text t.speaker rest

/-- `group_sloks` from generate-html.py. -/
def group_sloks : List Tup → List GMsg
  | [] => []
  | t :: rest => groupAux t.chap t.verse t.verse t.text t.speaker rest

/-- The spec's description of the extension test: the candidate has the
same chapter as the group (its first member), a verse exactly one greater
than the group's current last verse, the same speaker, and text equivalent
to the text of the group's *first* member. -/
def specExtend (first : Tup) (lastv : Nat) (t : Tup) : Bool :=
  t.chap == first.chap && t.verse == lastv + 1 && t.speaker == first.speaker &&
    are_texts_equivalent first.text t.text

/-- Modelled from the spec: sequential greedy grouping where each group is
kept as its full member list (`first` is the group opener, `lastv` the
verse of the last member appended, `grp` the members so far). -/
def specAux (first : Tup) (lastv : Nat) (grp : List Tup) :
    List Tup → List (List Tup)
  | [] => [grp]
  | t :: rest =>
    if specExtend first lastv t then specAux first t.verse (grp ++ [t]) rest
    else grp :: specAux t t.verse [t] rest

/-- Modelled from the spec: the groups, as lists of input tuples. -/
def specGroups : List Tup → List (List Tup)
  | [] => []
  | t :: rest => specAux t t.verse [t] rest

/-- The verse of the last member of a group (`0` for an empty list, which
never occurs). -/
def lastVerse (g : List Tup) : Nat :=
  match g.getLast? with
  | some t => t.verse
  | none => 0

/-- Collapse a member list to the rendered `(chapter, start_verse,
end_verse, text, speaker)` tuple: chapter, text and speaker come from the
first member, the verse range from the first and last members. -/
def summarize (g : List Tup) : GMsg :=
  match g with
  | [] => ⟨0, 0, 0, "", none⟩
  | t :: _ => ⟨t.chap, t.verse, lastVerse g, t.text, t.speaker⟩

/-! ### Ordered records (`OrderedDict`) and the speaker annotator -/

/-- A JSON value as far as these tools inspect it: a string, or anything
else (opaque). -/
inductive Val where
  | vstr : String → Val
  | vother : Nat → Val
deriving DecidableEq

/-- An ordered key/value document (`object_pairs_hook=OrderedDict`). -/
abbrev Record := List (String × Val)

/-- First-occurrence lookup, as in `data.get(key)`. -/
def getField : Record → String → Option Val
  | [], _ => none
  | (k, v) :: rest, key => if k = key then some v else getField rest key

/-- `data.get('slok', '')` followed by the string operations of
`first_line` (a present non-string value never matches a prefix). -/
def slokText (data : Record) : String :=
  match getField data "slok" with
  | some (Val.vstr s) => s
  | _ => ""

/-- `PREFIX_MAP`, in its literal (insertion) iteration order. -/
def prefixMapList : List (String × String) :=
  [("श्रीभगवानुवाच", "श्रीभगवान्"),
   ("अर्जुन उवाच", "अर्जुन"),
   ("सञ्जय उवाच", "सञ्जय"),
   ("धृतराष्ट्र उवाच", "धृतराष्ट्र")]

/-- `first_line` from add-speaker.py: text up to the first `'\n'`,
stripped. -/
def first_line (slok : String) : String :=
  if slok = "" then ""
  else String.mk (stripChars (slok.data.takeWhile (fun c => c ≠ '\n')))

/-- `detect` from add-speaker.py (identical to `detect_prefix` in
recompute_speakers.py): first prefix of `PREFIX_MAP` that the stripped
first line starts with. -/
def detect (slok : String) : Option String :=
  prefixMapList.findSome? fun p =>
    if p.1.data.isPrefixOf (first_line slok).data then some p.2 else none

/-- `insert_speaker` from add-speaker.py: drop any existing `speaker`
entry and insert `('speaker', speaker)` immediately before `slok`. -/
def insert_speaker : Record → String → Record
  | [], _ => []
  | (k, v) :: rest, sp =>
    if k = "speaker" then insert_speaker rest sp
    else if k = "slok" then
      ("speaker", Val.vstr sp) :: (k, v) :: insert_speaker rest sp
    else (k, v) :: insert_speaker rest sp

/-- The action tags of add-speaker.py (`skip` is dead: it is always
overwritten before use). -/
inductive SpkAction where
  | add | fix | mismatch | matched | nonePre
deriving DecidableEq

/-- The per-record logic of `process_file` (after the file has parsed):
returns the action taken and the resulting record. -/
def processRecord (data : Record) (fixFlag : Bool) : SpkAction × Record :=
  match detect (slokText data) with
  | some sp =>
    match getField data "speaker" with
    | none => (SpkAction.add, insert_speaker data sp)
    | some ev =>
      if ev = Val.vstr sp then (SpkAction.matched, data)
      else if fixFlag then (SpkAction.fix, insert_speaker data sp)
      else (SpkAction.mismatch, data)
  | none => (SpkAction.nonePre, data)

/-- `if action in {'add', 'fix'}: ... rewrite the file`. -/
def processWrites (data : Record) (fixFlag : Bool) : Bool :=
  (processRecord data fixFlag).1 == SpkAction.add ||
    (processRecord data fixFlag).1 == SpkAction.fix

/-! ### The speaker normalizer (`recompute_speakers.py`) -/

/-- `rebuild_with_speaker`: insert `('speaker', speaker)` just before
`slok`, skipping any old `speaker` entry. -/
def rebuild_with_speaker : Record → String → Record
  | [], _ => []
  | (k, v) :: rest, sp =>
    if k = "slok" then
      ("speaker", Val.vstr sp) :: (k, v) :: rebuild_with_speaker rest sp
    else if k = "speaker" then rebuild_with_speaker rest sp
    else (k, v) :: rebuild_with_speaker rest sp

def chapterLit : List Char := "bhagavadgita_chapter_".data
def slokLit : List Char := "_slok_".data
def jsonLit : List Char := ".json".data

/-- `int()` on a run of ASCII digits. -/
def digitsToNat (ds : List Char) : Nat :=
  ds.foldl (fun n c => n * 10 + (c.toNat - '0'.toNat)) 0

/-- Try `FILENAME_RE` = `bhagavadgita_chapter_(\d+)_slok_(\d+)\.json$` at
the current position: after the literal, a maximal digit run must be
followed by `_slok_` (a shorter run would end at a digit, so greedy
matching is deterministic), a second maximal run by `.json` at the very
end. -/
def matchNumsAt (l : List Char) : Option (Nat × Nat) :=
  if chapterLit.isPrefixOf l then
    let r0 := l.drop chapterLit.length
    let d1 := takeDigits r0
    let r1 := dropDigits r0
    if d1 ≠ [] ∧ slokLit.isPrefixOf r1 then
      let r2 := r1.drop slokLit.length
      let d2 := takeDigits r2
      if d2 ≠ [] ∧ dropDigits r2 = jsonLit then
        some (digitsToNat d1, digitsToNat d2)
      else none
    else none
  else none

/-- `re.search`: leftmost position where the pattern matches. -/
def searchNums : List Char → Option (Nat × Nat)
  | [] => none
  | c :: rest =>
    match matchNumsAt (c :: rest) with
    | some r => some r
    | none => searchNums rest

/-- `parse_numbers` from recompute_speakers.py, on a basename. -/
def parse_numbers (name : String) : Option (Nat × Nat) := searchNums name.data

/-- One corpus entry of the normalizer: `(chapter, verse, record)`. -/
abbrev REntry := Nat × Nat × Record

/-- The sort key `lambda t: (t[0], t[1])`. -/
def entryKey (e : REntry) : Nat × Nat := (e.1, e.2.1)

/-- Lexicographic numeric order on `(chapter, verse)`. -/
def keyLe (x y : Nat × Nat) : Prop := x.1 < y.1 ∨ (x.1 = y.1 ∧ x.2 ≤ y.2)

instance (x y : Nat × Nat) : Decidable (keyLe x y) := by
  unfold keyLe; infer_instance

/-- Stable insertion (a new element goes after all existing elements whose
key is `≤` its own), modelling Python's stable `list.sort`. -/
def insBy {α : Type} (key : α → Nat × Nat) (e : α) : List α → List α
  | [] => [e]
  | f :: rest =>
    if keyLe (key f) (key e) then f :: insBy key e rest else e :: f :: rest

/-- Stable sort by `key`, ascending. -/
def sortByKey {α : Type} (key : α → Nat × Nat) (l : List α) : List α :=
  l.foldl (fun acc e => insBy key e acc) []

/-- `entries.sort(key=lambda t: (t[0], t[1]))`. -/
def sortEntries (l : List REntry) : List REntry := sortByKey entryKey l

/-- The carry-forward state of the normalizer's main loop. -/
structure RecState where
  cur : Option String
  lastChap : Option Nat
deriving DecidableEq

/-- One iteration of the normalizer's loop: reset the carried speaker at a
chapter boundary, update it when the slok opens with a known prefix, then
rewrite the record when the computed speaker exists and differs from the
stored one.  Returns the new state and `(chapter, verse, resulting record,
whether the file was rewritten)`. -/
def recomputeStep (st : RecState) (e : REntry) :
    RecState × (Nat × Nat × Record × Bool) :=
  let chap := e.1
  let verse := e.2.1
  let data := e.2.2
  let detected := detect (slokText data)
  let cur1 : Option String :=
    if st.lastChap = some chap then st.cur else none
  let cur2 : Option String :=
    match detected with
    | some sp => some sp
    | none => cur1
  match cur2 with
  | some sp =>
    if getField data "speaker" = some (Val.vstr sp) then
      (⟨some sp, some chap⟩, (chap, verse, data, false))
    else
      (⟨some sp, some chap⟩, (chap, verse, rebuild_with_speaker data sp, true))
  | none => (⟨none, some chap⟩, (chap, verse, data, false))

/-- The normalizer's loop over the sorted entries. -/
def recomputeRun (st : RecState) : List REntry → List (Nat × Nat × Record × Bool)
  | [] => []
  | e :: rest =>
    let r := recomputeStep st e
    r.2 :: recomputeRun r.1 rest

/-- The state after processing a list of entries. -/
def stateAfter (st : RecState) (l : List REntry) : RecState :=
  l.foldl (fun s e => (recomputeStep s e).1) st

/-- Building `entries`: parse every filename, keep the parses. -/
def recomputeEntries (files : List (String × Record)) : List REntry :=
  files.filterMap fun f =>
    (parse_numbers f.1).map fun nums => (nums.1, nums.2, f.2)

/-- `main` of recompute_speakers.py as a pure function from the globbed
`(filename, parsed record)` list to the per-entry results, in processing
order. -/
def recomputeMain (files : List (String × Record)) :
    List (Nat × Nat × Record × Bool) :=
  recomputeRun ⟨none, none⟩ (sortEntries (recomputeEntries files))

/-! ### Corpus readers and error isolation -/

/-- A slok file as the HTML/Markdown readers see it after `json.load`:
either a parse error or the fields of interest. -/
structure RawSlok where
  ramsHt : Option String
  speaker : Option String
deriving DecidableEq

/-- `read_slok_files` from generate-html.py, over already-globbed
`(chapter, verse, parse result)` input: a `json.JSONDecodeError` (or any
other exception) is caught per file, reported, and the loop continues; a
file without `rams.ht` is skipped with a warning. -/
def read_slok_files (files : List (Nat × Nat × Except String RawSlok)) :
    List Tup :=
  files.filterMap fun f =>
    match f.2.2 with
    | Except.error _ => none
    | Except.ok d =>
      match d.ramsHt with
      | some t => some ⟨f.1, f.2.1, t, d.speaker⟩
      | none => none

/-- The `main` loop of add-speaker.py over parse results: `process_file`
calls `json.load` with no exception handler, and the loop in `main` has
none either, so the first malformed file raises and terminates the whole
run (results of the remaining files are never produced). -/
def addSpeakerRun (files : List (Except String Record)) (fixFlag : Bool) :
    Except String (List (SpkAction × Record × Bool)) :=
  match files with
  | [] => Except.ok []
  | f :: rest =>
    match f with
    | Except.error e => Except.error e
    | Except.ok data =>
      let r := processRecord data fixFlag
      match addSpeakerRun rest fixFlag with
      | Except.error e => Except.error e
      | Except.ok outs => Except.ok ((r.1, r.2, processWrites data fixFlag) :: outs)

/-- The sort of `generate_html` (`slok_data.sort(key=lambda x: (x[0],
x[1]))`). -/
def sortSloks (l : List Tup) : List Tup :=
  sortByKey (fun t => (t.chap, t.verse)) l

/-- The two counts written in the HTML footer: `Total Verses:
len(slok_data)` and `Messages Displayed: len(grouped_sloks)`, where
`generate_html` sorts `slok_data` in place and groups the sorted list. -/
def footerCounts (l : List Tup) : Nat × Nat :=
  let sorted := sortSloks l
  let grouped := group_sloks sorted
  (sorted.length, grouped.length)

/-! ### Sorting lemmas -/

theorem keyLe_total (x y : Nat × Nat) : keyLe x y ∨ keyLe y x := by
  unfold keyLe; omega

theorem keyLe_trans {x y z : Nat × Nat} (h1 : keyLe x y) (h2 : keyLe y z) :
    keyLe x z := by
  unfold keyLe at *; omega

theorem insBy_perm {α : Type} (key : α → Nat × Nat) (e : α) :
    ∀ l : List α, (insBy key e l).Perm (e :: l) := by
  intro l
  induction l with
  | nil => simp [insBy]
  | cons f rest ih =>
    simp only [insBy]
    split
    · exact (ih.cons f).trans (List.Perm.swap e f rest)
    · exact List.Perm.refl _

theorem sortByKey_perm {α : Type} (key : α → Nat × Nat) (l : List α) :
    (sortByKey key l).Perm l := by
  suffices h : ∀ (l acc : List α),
      (l.foldl (fun acc e => insBy key e acc) acc).Perm (acc ++ l) by
    simpa using h l []
  intro l
  induction l with
  | nil => intro acc; simp
  | cons e rest ih =>
    intro acc
    simp only [List.foldl_cons]
    exact (ih (insBy key e acc)).trans
      (((insBy_perm key e acc).append_right rest).trans List.perm_middle.symm)

theorem sortByKey_length {α : Type} (key : α → Nat × Nat) (l : List α) :
    (sortByKey key l).length = l.length :=
  (sortByKey_perm key l).length_eq

theorem insBy_pairwise {α : Type} (key : α → Nat × Nat) (e : α) :
    ∀ l : List α, l.Pairwise (fun a b => keyLe (key a) (key b)) →
      (insBy key e l).Pairwise (fun a b => keyLe (key a) (key b)) := by
  intro l
  induction l with
  | nil => intro _; simp [insBy]
  | cons f rest ih =>
    intro h
    rw [List.pairwise_cons] at h
    simp only [insBy]
    split
    · rename_i hfe
      rw [List.pairwise_cons]
      refine ⟨?_, ih h.2⟩
      intro x hx
      rcases List.mem_cons.mp ((insBy_perm key e rest).mem_iff.mp hx) with hx | hx
      · exact hx ▸ hfe
      · exact h.1 x hx
    · rename_i hfe
      have hef : keyLe (key e) (key f) :=
        (keyLe_total (key f) (key e)).resolve_left hfe
      rw [List.pairwise_cons]
      constructor
      · intro x hx
        rcases List.mem_cons.mp hx with hx | hx
        · exact hx ▸ hef
        · exact keyLe_trans hef (h.1 x hx)
      · rw [List.pairwise_cons]; exact h

theorem sortByKey_pairwise {α : Type} (key : α → Nat × Nat) (l : List α) :
    (sortByKey key l).Pairwise (fun a b => keyLe (key a) (key b)) := by
  suffices h : ∀ (l acc : List α),
      acc.Pairwise (fun a b => keyLe (key a) (key b)) →
      (l.foldl (fun acc e => insBy key e acc) acc).Pairwise
        (fun a b => keyLe (key a) (key b)) by
    exact h l [] (by simp)
  intro l
  induction l with
  | nil => intro acc h; simpa using h
  | cons e rest ih =>
    intro acc h
    simp only [List.foldl_cons]
    exact ih (insBy key e acc) (insBy_pairwise key e acc h)

/-! ### Normalizer run lemmas -/

theorem recomputeRun_append (st : RecState) (l m : List REntry) :
    recomputeRun st (l ++ m) =
      recomputeRun st l ++ recomputeRun (stateAfter st l) m := by
  induction l generalizing st with
  | nil => rfl
  | cons e rest ih =>
    calc recomputeRun st (e :: rest ++ m)
        = (recomputeStep st e).2 ::
            recomputeRun (recomputeStep st e).1 (rest ++ m) := rfl
      _ = (recomputeStep st e).2 ::
            (recomputeRun (recomputeStep st e).1 rest ++
              recomputeRun (stateAfter (recomputeStep st e).1 rest) m) := by
          rw [ih]
      _ = recomputeRun st (e :: rest) ++
            recomputeRun (stateAfter st (e :: rest)) m := rfl

theorem recomputeStep_lastChap (st : RecState) (e : REntry) :
    ((recomputeStep st e).1).lastChap = some e.1 := by
  dsimp only [recomputeStep]
  rcases detect (slokText e.2.2) with _ | sp
  · rcases hif : (if st.lastChap = some e.1 then st.cur else none) with _ | sp
    · rfl
    · dsimp only
      split <;> rfl
  · dsimp only
    split <;> rfl

theorem recomputeStep_key (st : RecState) (e : REntry) :
    ((recomputeStep st e).2.1, (recomputeStep st e).2.2.1) = (e.1, e.2.1) := by
  dsimp only [recomputeStep]
  rcases detect (slokText e.2.2) with _ | sp
  · rcases hif : (if st.lastChap = some e.1 then st.cur else none) with _ | sp
    · rfl
    · dsimp only
      split <;> rfl
  · dsimp only
    split <;> rfl

theorem recomputeRun_keys (st : RecState) (l : List REntry) :
    (recomputeRun st l).map (fun o => (o.1, o.2.1)) = l.map entryKey := by
  induction l generalizing st with
  | nil => rfl
  | cons e rest ih =>
    simp only [recomputeRun, List.map_cons]
    rw [ih]
    have h := recomputeStep_key st e
    simp only [entryKey]
    exact congrArg (· :: rest.map entryKey) h

/-! ### Grouping refinement lemmas -/

theorem extendOk_eq_specExtend (first : Tup) (lastv : Nat) (t : Tup) :
    extendOk first.chap lastv first.speaker first.text t =
      specExtend first lastv t := rfl

theorem lastVerse_concat (g : List Tup) (t : Tup) :
    lastVerse (g ++ [t]) = t.verse := by
  simp [lastVerse, List.getLast?_concat]

theorem groupAux_spec (rest : List Tup) :
    ∀ (first : Tup) (lastv : Nat) (grp : List Tup),
      grp.head? = some first → lastVerse grp = lastv →
      groupAux first.chap first.verse lastv first.text first.speaker rest =
        (specAux first lastv grp rest).map summarize := by
  induction rest with
  | nil =>
    intro first lastv grp hhead hlast
    cases grp with
    | nil => simp at hhead
    | cons f tl =>
      simp only [List.head?_cons, Option.some_inj] at hhead
      subst hhead
      simp [groupAux, specAux, summarize, hlast]
  | cons t rs ih =>
    intro first lastv grp hhead hlast
    cases grp with
    | nil => simp at hhead
    | cons f tl =>
      simp only [List.head?_cons, Option.some_inj] at hhead
      cases hhead
      simp only [groupAux, specAux, extendOk_eq_specExtend]
      by_cases hx : specExtend first lastv t = true
      · rw [if_pos hx, if_pos hx]
        exact ih first t.verse ((first :: tl) ++ [t]) (by simp)
          (lastVerse_concat _ t)
      · rw [if_neg hx, if_neg hx]
        have h1 : summarize (first :: tl) =
            ⟨first.chap, first.verse, lastv, first.text, first.speaker⟩ := by
          simp [summarize, hlast]
        rw [List.map_cons, h1, ih t t.verse [t] rfl rfl]

theorem group_sloks_eq_spec (l : List Tup) :
    group_sloks l = (specGroups l).map summarize := by
  cases l with
  | nil => rfl
  | cons t rest =>
    exact groupAux_spec rest t t.verse [t] rfl rfl

theorem specAux_flatten (rest : List Tup) :
    ∀ (first : Tup) (lastv : Nat) (grp : List Tup),
      (specAux first lastv grp rest).flatten = grp ++ rest := by
  induction rest with
  | nil => intro first lastv grp; simp [specAux]
  | cons t rs ih =>
    intro first lastv grp
    simp only [specAux]
    by_cases hx : specExtend first lastv t = true
    · rw [if_pos hx]
      rw [ih first t.verse (grp ++ [t])]
      simp
    · rw [if_neg hx]
      simp only [List.flatten_cons]
      rw [ih t t.verse [t]]
      simp

theorem specGroups_flatten (l : List Tup) : (specGroups l).flatten = l := by
  cases l with
  | nil => rfl
  | cons t rest =>
    simpa using specAux_flatten rest t t.verse [t]

/-- Shape invariant of every produced group: nonempty, all members share
the first member's chapter and speaker, and the verses are exactly the
consecutive run starting at the first member's verse. -/
def GoodGroup (g : List Tup) : Prop :=
  ∃ f tl, g = f :: tl ∧
    (∀ t ∈ g, t.chap = f.chap ∧ t.speaker = f.speaker) ∧
    g.map Tup.verse = List.range' f.verse g.length ∧
    lastVerse g + 1 = f.verse + g.length

theorem specExtend_true {first : Tup} {lastv : Nat} {t : Tup}
    (hx : specExtend first lastv t = true) :
    t.chap = first.chap ∧ t.verse = lastv + 1 ∧ t.speaker = first.speaker := by
  simp only [specExtend, Bool.and_eq_true, beq_iff_eq] at hx
  exact ⟨hx.1.1.1, hx.1.1.2, hx.1.2⟩

theorem specAux_good (rest : List Tup) :
    ∀ (first : Tup) (lastv : Nat) (grp : List Tup),
      grp.head? = some first →
      (∀ t ∈ grp, t.chap = first.chap ∧ t.speaker = first.speaker) →
      grp.map Tup.verse = List.range' first.verse grp.length →
      lastVerse grp = lastv →
      lastv + 1 = first.verse + grp.length →
      ∀ g ∈ specAux first lastv grp rest, GoodGroup g := by
  induction rest with
  | nil =>
    intro first lastv grp hhead hmem hverse hlast hsum g hg
    simp only [specAux, List.mem_singleton] at hg
    subst hg
    cases g with
    | nil => simp at hhead
    | cons f tl =>
      simp only [List.head?_cons, Option.some_inj] at hhead
      cases hhead
      exact ⟨first, tl, rfl, hmem, hverse, by omega⟩
  | cons t rs ih =>
    intro first lastv grp hhead hmem hverse hlast hsum g hg
    simp only [specAux] at hg
    by_cases hx : specExtend first lastv t = true
    · rw [if_pos hx] at hg
      obtain ⟨hc, hv, hs⟩ := specExtend_true hx
      refine ih first t.verse (grp ++ [t]) ?_ ?_ ?_ (lastVerse_concat _ t) ?_ g hg
      · cases grp with
        | nil => simp at hhead
        | cons f tl => simpa using hhead
      · intro u hu
        rcases List.mem_append.mp hu with hu | hu
        · exact hmem u hu
        · rw [List.mem_singleton.mp hu]; exact ⟨hc, hs⟩
      · have hv2 : t.verse = first.verse + grp.length := by omega
        rw [List.map_append, hverse, List.length_append]
        simp only [List.map_cons, List.map_nil, List.length_cons, List.length_nil]
        rw [hv2, List.range'_1_concat]
      · simp only [List.length_append, List.length_cons, List.length_nil]
        omega
    · rw [if_neg hx] at hg
      rcases List.mem_cons.mp hg with hg | hg
      · subst hg
        cases g with
        | nil => simp at hhead
        | cons f tl =>
          simp only [List.head?_cons, Option.some_inj] at hhead
          cases hhead
          exact ⟨first, tl, rfl, hmem, hverse, by omega⟩
      · refine ih t t.verse [t] rfl ?_ ?_ rfl ?_ g hg
        · intro u hu
          rw [List.mem_singleton.mp hu]; exact ⟨rfl, rfl⟩
        · simp [List.range']
        · simp

theorem specGroups_good (l : List Tup) :
    ∀ g ∈ specGroups l, GoodGroup g := by
  cases l with
  | nil => intro g hg; simp [specGroups] at hg
  | cons t rest =>
    exact specAux_good rest t t.verse [t] rfl
      (fun u hu => by rw [List.mem_singleton.mp hu]; exact ⟨rfl, rfl⟩)
      (by simp [List.range']) rfl (by simp)

theorem nonempty_count (L : List (List Tup)) (h : ∀ g ∈ L, g ≠ []) :
    L.length ≤ L.flatten.length ∧
    (L.length = L.flatten.length ↔ ∀ g ∈ L, g.length = 1) := by
  induction L with
  | nil => simp
  | cons g L ih =>
    have hg : 1 ≤ g.length := by
      have := h g (List.mem_cons_self g L)
      cases g with
      | nil => exact absurd rfl this
      | cons _ _ => simp
    have ihL := ih (fun u hu => h u (List.mem_cons_of_mem g hu))
    simp only [List.flatten_cons, List.length_cons, List.length_append,
      List.mem_cons, forall_eq_or_imp]
    constructor
    · omega
    · constructor
      · intro heq
        have h1 : g.length = 1 := by omega
        have h2 : L.length = L.flatten.length := by omega
        exact ⟨h1, ihL.2.mp h2⟩
      · intro ⟨h1, h2⟩
        have := ihL.2.mpr h2
        omega

theorem good_start_end {g : List Tup} (hg : GoodGroup g) :
    ((summarize g).startv = (summarize g).endv ↔ g.length = 1) := by
  obtain ⟨f, tl, rfl, _, _, hlast⟩ := hg
  simp only [summarize, List.length_cons] at *
  omega

/-! ### Claim theorems: grouping engine -/

/-- C1: for every input sequence, the greedy sequential grouping of
`group_sloks` coincides with the spec-level grouping `specGroups`, whose
extension test (`specExtend`) admits a tuple into the current group iff it
has the group's chapter, a verse exactly one greater than the group's
current last verse, the group's speaker, and text equivalent to the text
of the group's *first* member (`are_texts_equivalent first.text t.text`),
not of the immediately preceding member. -/
theorem grouping_anchored_to_first (l : List Tup) :
    group_sloks l = (specGroups l).map summarize :=
  group_sloks_eq_spec l

/-- C10: the grouping engine partitions its input: the member lists of
`specGroups` concatenate, in output order, to exactly the input list;
`group_sloks` is their per-group summary; and every group is a nonempty
run of consecutive verses of one chapter and speaker whose summary tuple
takes text and speaker from the first member and satisfies
`start_verse ≤ end_verse`. -/
theorem grouping_partition (l : List Tup) :
    (specGroups l).flatten = l ∧
    group_sloks l = (specGroups l).map summarize ∧
    ∀ g ∈ specGroups l, ∃ f tl, g = f :: tl ∧
      summarize g = ⟨f.chap, f.verse, f.verse + tl.length, f.text, f.speaker⟩ ∧
      (summarize g).startv ≤ (summarize g).endv ∧
      g.map Tup.verse = List.range' f.verse g.length ∧
      ∀ t ∈ g, t.chap = f.chap ∧ t.speaker = f.speaker := by
  refine ⟨specGroups_flatten l, group_sloks_eq_spec l, ?_⟩
  intro g hg
  obtain ⟨f, tl, rfl, hmem, hverse, hlast⟩ := specGroups_good l g hg
  have hl : lastVerse (f :: tl) = f.verse + tl.length := by
    simp only [List.length_cons] at hlast; omega
  refine ⟨f, tl, rfl, ?_, ?_, hverse, hmem⟩
  · simp [summarize, hl]
  · simp [summarize, hl]

def wTup1 : Tup := ⟨1, 1, "a b c", some "s"⟩
def wTup2 : Tup := ⟨1, 2, "a b c", some "s"⟩
def wTup3 : Tup := ⟨2, 1, "x y z", none⟩

def wTups : List Tup := [wTup1, wTup2, wTup3]

/-- Witness for C10 at a concrete input: a two-verse group followed by a
one-verse group in another chapter. -/
theorem grouping_partition_witness :
    (specGroups wTups).flatten = wTups ∧
    (∃ f tl, [wTup1, wTup2] = f :: tl ∧
      summarize [wTup1, wTup2] =
        ⟨f.chap, f.verse, f.verse + tl.length, f.text, f.speaker⟩ ∧
      (summarize [wTup1, wTup2]).startv ≤ (summarize [wTup1, wTup2]).endv ∧
      [wTup1, wTup2].map Tup.verse = List.range' f.verse [wTup1, wTup2].length ∧
      ∀ t ∈ [wTup1, wTup2], t.chap = f.chap ∧ t.speaker = f.speaker) :=
  ⟨(grouping_partition wTups).1,
   (grouping_partition wTups).2.2 [wTup1, wTup2] (by decide)⟩

/-- C9: the number of grouped messages is at most the number of input
records, with equality iff no group spans more than one verse; the
footer counts are exactly (number of input records, number of groups). -/
theorem grouping_counts (l : List Tup) :
    (group_sloks l).length ≤ l.length ∧
    ((group_sloks l).length = l.length ↔
      ∀ g ∈ group_sloks l, g.startv = g.endv) ∧
    footerCounts l = (l.length, (group_sloks (sortSloks l)).length) := by
  have hmap := group_sloks_eq_spec l
  have hflat := specGroups_flatten l
  have hne : ∀ g ∈ specGroups l, g ≠ [] := by
    intro g hg
    obtain ⟨f, tl, rfl, _⟩ := specGroups_good l g hg
    simp
  have hcount := nonempty_count (specGroups l) hne
  have hlen : (group_sloks l).length = (specGroups l).length := by
    rw [hmap, List.length_map]
  have hllen : l.length = (specGroups l).flatten.length := by rw [hflat]
  refine ⟨?_, ?_, ?_⟩
  · rw [hlen, hllen]; exact hcount.1
  · rw [hlen, hllen, hcount.2]
    constructor
    · intro hall gm hgm
      rw [hmap] at hgm
      obtain ⟨g, hg, rfl⟩ := List.mem_map.mp hgm
      exact (good_start_end (specGroups_good l g hg)).mpr (hall g hg)
    · intro hall g hg
      refine (good_start_end (specGroups_good l g hg)).mp ?_
      exact hall (summarize g) (by rw [hmap]; exact List.mem_map_of_mem summarize hg)
  · show ((sortSloks l).length, (group_sloks (sortSloks l)).length) = _
    rw [sortSloks, sortByKey_length]

def wSingles : List Tup := [⟨1, 1, "a b c", some "s"⟩, ⟨2, 1, "x y z", none⟩]

/-- Witness for C9 at a concrete input where every group is a single
verse, so the count inequality is an equality. -/
theorem grouping_counts_witness :
    (group_sloks wSingles).length ≤ wSingles.length ∧
    (group_sloks wSingles).length = wSingles.length :=
  ⟨(grouping_counts wSingles).1,
   (grouping_counts wSingles).2.1.mpr (by decide)⟩

/-! ### Claim theorems: speaker normalizer -/

theorem recomputeStep_reset (st : RecState) (e : REntry)
    (hch : ¬ st.lastChap = some e.1)
    (hdet : detect (slokText e.2.2) = none) :
    recomputeStep st e = (⟨none, some e.1⟩, (e.1, e.2.1, e.2.2, false)) := by
  simp only [recomputeStep]
  rw [hdet, if_neg hch]

def nrmRec4 : Record := [("slok", Val.vstr "अर्जुन उवाच\nश्लोक चार")]
def nrmRec39 : Record := [("slok", Val.vstr "श्लोक उनतालीस")]
def nrmRec40 : Record := [("slok", Val.vstr "धृतराष्ट्र उवाच\nश्लोक चालीस")]

/-- Chapter-2 demo corpus, deliberately listed in *lexicographic* filename
order (`_slok_39` < `_slok_4` < `_slok_40` as strings). -/
def nrmFiles : List (String × Record) :=
  [("bhagavadgita_chapter_2_slok_39.json", nrmRec39),
   ("bhagavadgita_chapter_2_slok_4.json", nrmRec4),
   ("bhagavadgita_chapter_2_slok_40.json", nrmRec40)]

/-- C6: the normalizer processes records in ascending numeric
`(chapter, verse)` order extracted from the filenames (the processed key
sequence is a `keyLe`-sorted permutation of the parsed keys), and on the
demo corpus — given in lexicographic filename order, where verse 39 comes
first and has no prefix — verse 4 (`अर्जुन उवाच`) is processed first,
verse 39 inherits speaker `अर्जुन` by carry-forward, and verse 40 gets
`धृतराष्ट्र`. -/
theorem normalizer_numeric_order :
    (∀ files : List (String × Record),
      ((recomputeMain files).map (fun o => (o.1, o.2.1))).Perm
        ((recomputeEntries files).map entryKey) ∧
      ((recomputeMain files).map (fun o => (o.1, o.2.1))).Pairwise keyLe) ∧
    recomputeMain nrmFiles =
      [(2, 4, [("speaker", Val.vstr "अर्जुन"),
               ("slok", Val.vstr "अर्जुन उवाच\nश्लोक चार")], true),
       (2, 39, [("speaker", Val.vstr "अर्जुन"),
                ("slok", Val.vstr "श्लोक उनतालीस")], true),
       (2, 40, [("speaker", Val.vstr "धृतराष्ट्र"),
                ("slok", Val.vstr "धृतराष्ट्र उवाच\nश्लोक चालीस")], true)] := by
  constructor
  · intro files
    constructor
    · rw [recomputeMain, recomputeRun_keys]
      exact (sortByKey_perm entryKey (recomputeEntries files)).map entryKey
    · rw [recomputeMain, recomputeRun_keys]
      exact List.pairwise_map.mpr (sortByKey_pairwise entryKey (recomputeEntries files))
  · decide

/-- C7: the carried speaker is cleared at every chapter boundary: for any
consecutive pair of entries with different chapters anywhere in the
processed sequence, if the later record has no detectable prefix it is
emitted unchanged with no write (it does not inherit the previous
chapter's trailing speaker), and processing continues from the cleared
state. -/
theorem normalizer_chapter_reset (pre suf : List REntry) (c1 v1 : Nat)
    (r1 : Record) (c2 v2 : Nat) (r2 : Record) (hne : c1 ≠ c2)
    (hdet : detect (slokText r2) = none) :
    recomputeRun ⟨none, none⟩ (pre ++ (c1, v1, r1) :: (c2, v2, r2) :: suf) =
      recomputeRun ⟨none, none⟩ (pre ++ [(c1, v1, r1)]) ++
        (c2, v2, r2, false) :: recomputeRun ⟨none, some c2⟩ suf := by
  have hsplit : pre ++ (c1, v1, r1) :: (c2, v2, r2) :: suf =
      (pre ++ [(c1, v1, r1)]) ++ ((c2, v2, r2) :: suf) := by simp
  rw [hsplit, recomputeRun_append]
  have hlast : (stateAfter ⟨none, none⟩ (pre ++ [(c1, v1, r1)])).lastChap =
      some c1 := by
    rw [stateAfter, List.foldl_append]
    exact recomputeStep_lastChap _ _
  have hne2 : ¬ (stateAfter ⟨none, none⟩
      (pre ++ [(c1, v1, r1)])).lastChap = some c2 := by
    rw [hlast]
    simp [hne]
  have hstep := recomputeStep_reset
    (stateAfter ⟨none, none⟩ (pre ++ [(c1, v1, r1)])) (c2, v2, r2) hne2 hdet
  have hrun : ∀ st : RecState, recomputeRun st ((c2, v2, r2) :: suf) =
      (recomputeStep st (c2, v2, r2)).2 ::
        recomputeRun (recomputeStep st (c2, v2, r2)).1 suf :=
    fun st => rfl
  rw [hrun, hstep]

/-- Witness for C7: chapter 1 ends with an अर्जुन verse; the first verse
of chapter 2 has no prefix and is left untouched. -/
theorem normalizer_chapter_reset_witness :
    recomputeRun ⟨none, none⟩ [(1, 47, nrmRec4), (2, 1, nrmRec39)] =
      recomputeRun ⟨none, none⟩ [(1, 47, nrmRec4)] ++
        (2, 1, nrmRec39, false) :: recomputeRun ⟨none, some 2⟩ [] :=
  normalizer_chapter_reset [] [] 1 47 nrmRec4 2 1 nrmRec39 (by decide)
    (by decide)

/-! ### Record lemmas for the annotator -/

theorem getField_append (pre rest : List (String × Val)) (key : String)
    (hpre : ∀ p ∈ pre, p.1 ≠ key) :
    getField (pre ++ rest) key = getField rest key := by
  induction pre with
  | nil => rfl
  | cons p pr ih =>
    obtain ⟨k, w⟩ := p
    have hk : k ≠ key := hpre (k, w) (List.mem_cons_self _ _)
    simp only [List.cons_append, getField, if_neg hk]
    exact ih fun q hq => hpre q (List.mem_cons_of_mem _ hq)

theorem getField_none (l : List (String × Val)) (key : String)
    (h : ∀ p ∈ l, p.1 ≠ key) : getField l key = none := by
  induction l with
  | nil => rfl
  | cons p pr ih =>
    obtain ⟨k, w⟩ := p
    have hk : k ≠ key := h (k, w) (List.mem_cons_self _ _)
    simp only [getField, if_neg hk]
    exact ih fun q hq => h q (List.mem_cons_of_mem _ hq)

theorem insert_speaker_notin (l : List (String × Val)) (sp : String)
    (h : ∀ p ∈ l, p.1 ≠ "speaker" ∧ p.1 ≠ "slok") :
    insert_speaker l sp = l := by
  induction l with
  | nil => rfl
  | cons p pr ih =>
    obtain ⟨k, w⟩ := p
    have hk := h (k, w) (List.mem_cons_self _ _)
    simp only [insert_speaker, if_neg hk.1, if_neg hk.2]
    rw [ih fun q hq => h q (List.mem_cons_of_mem _ hq)]

theorem insert_speaker_append (pre post : List (String × Val)) (v : Val)
    (sp : String) (hpre : ∀ p ∈ pre, p.1 ≠ "speaker" ∧ p.1 ≠ "slok") :
    insert_speaker (pre ++ ("slok", v) :: post) sp =
      pre ++ ("speaker", Val.vstr sp) :: ("slok", v) :: insert_speaker post sp := by
  induction pre with
  | nil => simp [insert_speaker]
  | cons p pr ih =>
    obtain ⟨k, w⟩ := p
    have hk := hpre (k, w) (List.mem_cons_self _ _)
    have ih2 := ih fun q hq => hpre q (List.mem_cons_of_mem _ hq)
    simp only [List.cons_append, insert_speaker, if_neg hk.1, if_neg hk.2]
    simp only [List.append_eq] at ih2 ⊢
    rw [ih2]

theorem insert_getField_slok (l : List (String × Val)) (sp : String) :
    getField (insert_speaker l sp) "slok" = getField l "slok" := by
  induction l with
  | nil => rfl
  | cons p pr ih =>
    obtain ⟨k, w⟩ := p
    by_cases hk1 : k = "speaker"
    · subst hk1
      simp only [insert_speaker, if_pos rfl, getField,
        if_neg (by decide : ¬ ("speaker" : String) = "slok")]
      exact ih
    · by_cases hk2 : k = "slok"
      · subst hk2
        simp [insert_speaker, getField, hk1]
      · simp only [insert_speaker, if_neg hk1, if_neg hk2, getField]
        exact ih

theorem insert_getField_speaker (l : List (String × Val)) (sp : String)
    (v0 : Val) (h : getField l "slok" = some v0) :
    getField (insert_speaker l sp) "speaker" = some (Val.vstr sp) := by
  induction l with
  | nil => simp [getField] at h
  | cons p pr ih =>
    obtain ⟨k, w⟩ := p
    by_cases hk1 : k = "speaker"
    · subst hk1
      simp only [insert_speaker, if_pos rfl]
      simp only [getField,
        if_neg (by decide : ¬ ("speaker" : String) = "slok")] at h
      exact ih h
    · by_cases hk2 : k = "slok"
      · subst hk2
        simp [insert_speaker, getField, hk1]
      · simp only [insert_speaker, if_neg hk1, if_neg hk2, getField, if_neg hk1]
        simp only [getField, if_neg hk2] at h
        exact ih h

theorem detect_empty : detect "" = none := by decide

/-! ### Claim theorems: speaker annotator -/

/-- C4: on a record whose slok's first line starts with a known prefix and
which has no `speaker` field, the annotator takes the `add` action and
produces the record with `speaker` (set to the mapped canonical value)
inserted immediately before `slok`, all other fields unchanged and in
their original relative order. -/
theorem annotator_add (pre post : List (String × Val)) (s sp : String)
    (fixFlag : Bool)
    (hpre : ∀ p ∈ pre, p.1 ≠ "speaker" ∧ p.1 ≠ "slok")
    (hpost : ∀ p ∈ post, p.1 ≠ "speaker" ∧ p.1 ≠ "slok")
    (hdet : detect s = some sp) :
    processRecord (pre ++ ("slok", Val.vstr s) :: post) fixFlag =
      (SpkAction.add,
       pre ++ ("speaker", Val.vstr sp) :: ("slok", Val.vstr s) :: post) := by
  have hslok : getField (pre ++ ("slok", Val.vstr s) :: post) "slok" =
      some (Val.vstr s) := by
    rw [getField_append pre _ _ fun p hp => (hpre p hp).2]
    simp [getField]
  have hspk : getField (pre ++ ("slok", Val.vstr s) :: post) "speaker" =
      none := by
    rw [getField_append pre _ _ fun p hp => (hpre p hp).1]
    simp only [getField, if_neg (by decide : ¬ ("slok" : String) = "speaker")]
    exact getField_none post _ fun p hp => (hpost p hp).1
  have hstext : slokText (pre ++ ("slok", Val.vstr s) :: post) = s := by
    rw [slokText, hslok]
  simp only [processRecord, hstext, hdet, hspk]
  rw [insert_speaker_append pre post (Val.vstr s) sp hpre,
    insert_speaker_notin post sp hpost]

def annPre : List (String × Val) := [("_id", Val.vother 1)]
def annPost : List (String × Val) := [("transliteration", Val.vother 2)]

/-- Witness for C4 at a concrete record. -/
theorem annotator_add_witness :
    processRecord (annPre ++ ("slok", Val.vstr "सञ्जय उवाच\nतं तथा") :: annPost)
        true =
      (SpkAction.add,
       annPre ++ ("speaker", Val.vstr "सञ्जय") ::
         ("slok", Val.vstr "सञ्जय उवाच\nतं तथा") :: annPost) :=
  annotator_add annPre annPost "सञ्जय उवाच\nतं तथा" "सञ्जय" true
    (by decide) (by decide) (by decide)

theorem processRecord_matched (data : Record) (fixFlag : Bool) (s sp : String)
    (h1 : getField data "slok" = some (Val.vstr s))
    (h2 : detect s = some sp)
    (h3 : getField data "speaker" = some (Val.vstr sp)) :
    processRecord data fixFlag = (SpkAction.matched, data) := by
  have hst : slokText data = s := by rw [slokText, h1]
  simp [processRecord, hst, h2, h3]

theorem processRecord_write_shape (data : Record) (fixFlag : Bool)
    (h : (processRecord data fixFlag).1 = SpkAction.add ∨
         (processRecord data fixFlag).1 = SpkAction.fix) :
    ∃ s sp, getField data "slok" = some (Val.vstr s) ∧ detect s = some sp ∧
      (processRecord data fixFlag).2 = insert_speaker data sp := by
  rcases hdet : detect (slokText data) with _ | sp
  · simp only [processRecord, hdet] at h
    rcases h with h | h <;> simp at h
  · have hs : ∃ s, getField data "slok" = some (Val.vstr s) ∧
        slokText data = s := by
      rcases hg : getField data "slok" with _ | v
      · exfalso
        have he : slokText data = "" := by rw [slokText, hg]
        rw [he, detect_empty] at hdet
        simp at hdet
      · cases v with
        | vstr s => exact ⟨s, rfl, by rw [slokText, hg]⟩
        | vother n =>
          exfalso
          have he : slokText data = "" := by rw [slokText, hg]
          rw [he, detect_empty] at hdet
          simp at hdet
    obtain ⟨s, hg, hst⟩ := hs
    refine ⟨s, sp, hg, by rw [← hst]; exact hdet, ?_⟩
    rcases hex : getField data "speaker" with _ | ev
    · simp [processRecord, hdet, hex]
    · by_cases hev : ev = Val.vstr sp
      · exfalso
        simp only [processRecord, hdet, hex, if_pos hev] at h
        rcases h with h | h <;> simp at h
      · by_cases hf : fixFlag = true
        · simp [processRecord, hdet, hex, hev, hf]
        · exfalso
          simp only [processRecord, hdet, hex, if_neg hev,
            Bool.not_eq_true] at h
          rw [if_neg (by simp [hf])] at h
          rcases h with h | h <;> simp at h

/-- C5: only the `add` and `fix` outcomes write; a record whose stored
speaker already equals the value mapped from its detected prefix yields
`match` with the record unchanged and no write; and after a successful
(`add`/`fix`) run, a second run yields `match` with no write and no
change — the annotator is idempotent. -/
theorem annotator_idempotent :
    (∀ (data : Record) (fixFlag : Bool),
      processWrites data fixFlag = true ↔
        ((processRecord data fixFlag).1 = SpkAction.add ∨
         (processRecord data fixFlag).1 = SpkAction.fix)) ∧
    (∀ (data : Record) (fixFlag : Bool) (s sp : String),
      getField data "slok" = some (Val.vstr s) →
      detect s = some sp →
      getField data "speaker" = some (Val.vstr sp) →
      processRecord data fixFlag = (SpkAction.matched, data) ∧
      processWrites data fixFlag = false) ∧
    (∀ (data : Record) (fixFlag : Bool),
      ((processRecord data fixFlag).1 = SpkAction.add ∨
       (processRecord data fixFlag).1 = SpkAction.fix) →
      processRecord ((processRecord data fixFlag).2) fixFlag =
        (SpkAction.matched, (processRecord data fixFlag).2) ∧
      processWrites ((processRecord data fixFlag).2) fixFlag = false) := by
  refine ⟨?_, ?_, ?_⟩
  · intro data fixFlag
    simp [processWrites, Bool.or_eq_true, beq_iff_eq]
  · intro data fixFlag s sp h1 h2 h3
    have hrec : processRecord data fixFlag = (SpkAction.matched, data) :=
      processRecord_matched data fixFlag s sp h1 h2 h3
    refine ⟨hrec, ?_⟩
    simp [processWrites, hrec]
  · intro data fixFlag h
    obtain ⟨s, sp, hg, hdet, hrec⟩ := processRecord_write_shape data fixFlag h
    have hslok2 : getField ((processRecord data fixFlag).2) "slok" =
        some (Val.vstr s) := by
      rw [hrec, insert_getField_slok, hg]
    have hst2 : slokText ((processRecord data fixFlag).2) = s := by
      rw [slokText, hslok2]
    have hspk2 : getField ((processRecord data fixFlag).2) "speaker" =
        some (Val.vstr sp) := by
      rw [hrec]
      exact insert_getField_speaker data sp _ hg
    have hrec2 : processRecord ((processRecord data fixFlag).2) fixFlag =
        (SpkAction.matched, (processRecord data fixFlag).2) :=
      processRecord_matched _ fixFlag s sp hslok2 hdet hspk2
    refine ⟨hrec2, ?_⟩
    simp [processWrites, hrec2]

def annDemo : Record := [("slok", Val.vstr "धृतराष्ट्र उवाच\nधर्मक्षेत्रे कुरुक्षेत्रे")]

/-- Witness for C5: a concrete `add` run followed by a `match` run. -/
theorem annotator_idempotent_witness :
    processRecord ((processRecord annDemo false).2) false =
      (SpkAction.matched, (processRecord annDemo false).2) ∧
    processWrites ((processRecord annDemo false).2) false = false :=
  annotator_idempotent.2.2 annDemo false (Or.inl (by decide))

/-! ### Claim theorems: error isolation of the corpus readers -/

def c8good : Record := [("slok", Val.vstr "अर्जुन उवाच\nदृष्ट्वा तु")]

/-- C8 counterexample: the annotator's run over a corpus whose first file
is malformed terminates with the parse error — the remaining well-formed
file, which alone would produce an `add` result, is never processed. -/
theorem reader_isolation_counterexample :
    addSpeakerRun [Except.error "Expecting value", Except.ok c8good] false =
      Except.error "Expecting value" ∧
    addSpeakerRun [Except.ok c8good] false =
      Except.ok [(SpkAction.add, insert_speaker c8good "अर्जुन", true)] :=
  ⟨rfl, rfl⟩

/-- C8 (amended): per-file isolation holds for the renderers' corpus
reader (`read_slok_files` skips a malformed file and processes the rest),
but not for add-speaker.py, whose run aborts with the first parse error
because neither `process_file` nor its `main` loop catches it. -/
theorem reader_isolation_amended :
    (∀ (pre post : List (Nat × Nat × Except String RawSlok)) (c v : Nat)
        (e : String),
      read_slok_files (pre ++ (c, v, Except.error e) :: post) =
        read_slok_files (pre ++ post)) ∧
    (∀ (pres : List Record) (e : String)
        (post : List (Except String Record)) (fixFlag : Bool),
      addSpeakerRun (pres.map Except.ok ++ Except.error e :: post) fixFlag =
        Except.error e) := by
  constructor
  · intro pre post c v e
    simp [read_slok_files, List.filterMap_append, List.filterMap_cons]
  · intro pres e post fixFlag
    induction pres with
    | nil => rfl
    | cons r rs ih => simp [addSpeakerRun, ih]

/-! ### Claim theorems: text normalization -/

/-- C3: `normalize_text` is the pipeline strip-verse-marker, then
collapse-and-trim whitespace, then drop whitespace before `! ? , । ; :`;
in particular the plain marker of "।।2.69।। some text" and the ranged
marker (in all four dash variants) are stripped. -/
theorem normalization_pipeline :
    (∀ t : String, normalize_text t =
      String.mk (rmSpaceBeforePunct
        (collapseWS (stripChars (stripVersePrefix t).data)))) ∧
    normalize_text "।।2.69।। some text" = "some text" ∧
    stripVersePrefix "।।3.1 -- 3.2।। other text" = "other text" ∧
    stripVersePrefix "।।3.1 - 3.2।। other text" = "other text" ∧
    stripVersePrefix "।।3.1 – 3.2।। other text" = "other text" ∧
    stripVersePrefix "।।3.1 — 3.2।। other text" = "other text" ∧
    normalize_text "क्या  कहा ,सुनो !" = "क्या कहा,सुनो!" :=
  ⟨fun t => rfl, by decide, by decide, by decide, by decide, by decide,
   by decide⟩

/-! ### Claim theorems: the equivalence predicate -/

theorem ratioGt_iff (x y : String) :
    ratioGt x y = true ↔ seqRatio x y > (0.965 : ℚ) := by
  simp only [ratioGt, seqRatio]
  by_cases ht : x.data.length + y.data.length = 0
  · rw [if_pos ht, if_pos ht]
    norm_num
  · rw [if_neg ht, if_neg ht]
    have ht' : 0 < x.data.length + y.data.length := Nat.pos_of_ne_zero ht
    have htQ : (0:ℚ) < (x.data.length : ℚ) + (y.data.length : ℚ) := by
      exact_mod_cast ht'
    rw [decide_eq_true_eq, gt_iff_lt,
      show (0.965:ℚ) = 965 / 1000 by norm_num,
      div_lt_div_iff₀ (by norm_num) htQ]
    constructor
    · intro h
      have h2 : 965 * (x.data.length + y.data.length) <
          2 * matchesTotal x.data y.data * 1000 := by omega
      exact_mod_cast h2
    · intro h
      have h2 : 965 * (x.data.length + y.data.length) <
          2 * matchesTotal x.data y.data * 1000 := by exact_mod_cast h
      omega

/-- C2: `are_texts_equivalent` holds iff one of the three rules fires:
equal normalized texts; matching-block similarity ratio of the normalized
texts strictly above 0.965; or token sets (lowercased, punctuation
replaced by spaces, whitespace-split) with symmetric difference of size at
most 2 and token-count difference at most 3. -/
theorem equivalence_rules (a b : String) :
    are_texts_equivalent a b = true ↔
      (normalize_text a = normalize_text b ∨
       seqRatio (normalize_text a) (normalize_text b) > (0.965 : ℚ) ∨
       ((((tokensOf a).toFinset \ (tokensOf b).toFinset) ∪
         ((tokensOf b).toFinset \ (tokensOf a).toFinset)).card ≤ 2 ∧
        (((tokensOf a).length : ℤ) - ((tokensOf b).length : ℤ)).natAbs ≤ 3)) := by
  simp only [are_texts_equivalent]
  split_ifs with h1 h2 h3
  · simp [h1]
  · simp only [true_iff]
    exact Or.inr (Or.inl ((ratioGt_iff _ _).mp h2))
  · simp only [true_iff]
    exact Or.inr (Or.inr h3)
  · simp only [false_iff]
    intro hcon
    rcases hcon with hc | hc | hc
    · exact h1 hc
    · exact h2 ((ratioGt_iff _ _).mpr hc)
    · exact h3 hc
